import Mathlib

/-!
Shallow embedding of the genre-categorization pipeline of
`src/frontend/src/script.ts` (repository MichaelPeng123/spottie).

The embedded code consists of the two helper functions
`enrichTracksWithGenres` (script.ts lines 185-201) and
`categorizeTracksByGenre` (script.ts lines 203-233), together with the
error behaviour of the catalog lookup `fetchArtistGenres`
(script.ts lines 158-169).

Modelling conventions:
* A JavaScript object used as a string-keyed dictionary is modelled as an
  association list holding its properties in creation order; wherever the
  object's key order is observed (the `Object.keys` call, or a caller
  enumerating the returned object with `Object.entries`), the ECMAScript
  OwnPropertyKeys order is applied by `jsEnumOrder`: array-index-like keys
  (canonical base-10 numerals below `2^32 - 1`, such as `"1"`) come first
  in ascending numeric order, then the remaining string keys in creation
  order.
* `[...new Set(xs)]` is modelled by `jsSetDedup`, which keeps the first
  occurrence of each element (JS `Set` iterates in insertion order).
* `Array.prototype.sort` is stable (required since ES2019); the stable
  sort with comparator `(a, b) => categorized[b].length - categorized[a].length`
  is modelled by the stable insertion sort `sortStable`, which orders keys
  by descending bucket length and keeps equal-length keys in their
  incoming order.
* The `await fetchArtistGenres(...)` call is modelled by a function
  parameter returning `Except CatalogError Catalog`; a rejected promise is
  an `Except.error`, and `await` on it aborts the enclosing function with
  the same error.
* The possibly-absent `track.genres` field is `Option (List String)`;
  the JS guard `track.genres && track.genres.length > 0` is falsy both
  when the field is absent (`none`) and when the array is empty
  (`[]` is truthy in JS but `[].length > 0` is false).
-/

/-- An artist reference embedded in a track (`{ id, name }`). -/
structure Artist where
  id : String
  name : String
deriving DecidableEq

/-- A track record as used by the script: `id`, `name`, `artists`,
`album.name`, `popularity`, `preview_url`, `added_at`, and the
genre list attached by enrichment (absent before enrichment). -/
structure Track where
  id : String
  name : String
  artists : List Artist
  album : String
  popularity : Nat
  preview_url : Option String
  added_at : String
  genres : Option (List String)
deriving DecidableEq

/-- Failure modes of the catalog lookup collaborator (spec section 7). -/
inductive CatalogError where
  | catalogUnavailable
  | catalogAuthError
  | catalogMalformedResponse
deriving DecidableEq

/-- The artist-to-genres mapping returned by the catalog lookup,
as an association list from artist id to genre labels. -/
abbrev Catalog := List (String × List String)

/-- Model of the JS expression `[...new Set(xs)]`: deduplicate keeping the
first occurrence of each element, preserving first-seen order. -/
def jsSetDedup {α : Type} [DecidableEq α] : List α → List α
  | [] => []
  | x :: xs => x :: (jsSetDedup xs).filter (fun y => decide (y ≠ x))

/-- script.ts lines 197-199: the genre list attached to one track, i.e.
`[...new Set(track.artists.flatMap(artist => artistGenreMap[artist.id] || []))]`. -/
def trackGenres (artistGenreMap : Catalog) (track : Track) : List String :=
  jsSetDedup (track.artists.flatMap fun artist => (artistGenreMap.lookup artist.id).getD [])

/-- script.ts lines 195-200: `tracks.map(track => ({...track, genres: ...}))`. -/
def enrichWithCatalog (artistGenreMap : Catalog) (tracks : List Track) : List Track :=
  tracks.map fun track => { track with genres := some (trackGenres artistGenreMap track) }

/-- script.ts lines 187-189: the deduplicated list of all artist ids
appearing across the track list, `[...new Set(tracks.flatMap(...))]`. -/
def collectArtistIds (tracks : List Track) : List String :=
  jsSetDedup (tracks.flatMap fun track => track.artists.map fun artist => artist.id)

/-- script.ts lines 185-201, `enrichTracksWithGenres`: gather the unique
artist ids, await the catalog lookup (a rejection propagates), and attach
the deduplicated genre union to every track. -/
def enrichTracksWithGenres (fetchArtistGenres : List String → Except CatalogError Catalog)
    (tracks : List Track) : Except CatalogError (List Track) :=
  match fetchArtistGenres (collectArtistIds tracks) with
  | Except.error e => Except.error e
  | Except.ok artistGenreMap => Except.ok (enrichWithCatalog artistGenreMap tracks)

/-- The categorized result: a JS object used as an ordered dictionary from
genre label to bucket of tracks, modelled in key-insertion order. -/
abbrev Buckets := List (String × List Track)

/-- Whether the object already has a property for this genre
(the JS truthiness test `categorized[genre]`; a present bucket is a
nonempty array, hence truthy). -/
def hasKey (buckets : Buckets) (genre : String) : Bool :=
  buckets.any fun p => p.1 == genre

/-- Property access `categorized[genre]`, with `[]` for an absent key. -/
def bucketOf (buckets : Buckets) (genre : String) : List Track :=
  match buckets with
  | [] => []
  | p :: rest => if p.1 = genre then p.2 else bucketOf rest genre

/-- script.ts lines 210-213 and 217-220: the statement pair
`if (!categorized[genre]) categorized[genre] = []; categorized[genre].push(track)`.
A missing key is created at the end of the insertion order, then the track
is pushed onto the bucket at that key. -/
def addToBucket (buckets : Buckets) (genre : String) (track : Track) : Buckets :=
  (if hasKey buckets genre then buckets else buckets ++ [(genre, [])]).map
    fun p => if p.1 = genre then (p.1, p.2 ++ [track]) else p

/-- The bucket labels one track is pushed to: its genre list when that is
present and nonempty, otherwise the single label `"Uncategorized"`. -/
def trackLabels (track : Track) : List String :=
  match track.genres with
  | some gs => if gs.length > 0 then gs else ["Uncategorized"]
  | none => ["Uncategorized"]

/-- script.ts lines 206-222, the body of `tracks.forEach`: push the track
onto the bucket of each of its genres when `track.genres && track.genres.length > 0`,
otherwise onto the `"Uncategorized"` bucket. -/
def pushTrack (acc : Buckets) (track : Track) : Buckets :=
  match track.genres with
  | some gs =>
      if gs.length > 0 then gs.foldl (fun a genre => addToBucket a genre track) acc
      else addToBucket acc "Uncategorized" track
  | none => addToBucket acc "Uncategorized" track

/-- script.ts lines 204-222: the `categorized` object after the forEach loop,
keys in first-created order. -/
def rawBuckets (tracks : List Track) : Buckets :=
  tracks.foldl pushTrack []

/-- The numeric value of a digit string (most significant digit first). -/
def digitsVal (cs : List Char) : Nat :=
  cs.foldl (fun n c => 10 * n + (c.toNat - 48)) 0

/-- Whether a string is an ECMAScript array index: the canonical base-10
numeral (no leading zeros except `"0"` itself) of an integer below
`2^32 - 1`. JS objects enumerate such string keys before all other string
keys, in ascending numeric order. -/
def isArrayIndex (s : String) : Bool :=
  match s.data with
  | [] => false
  | c :: cs =>
      (c :: cs).all Char.isDigit && (c != '0' || cs.isEmpty)
        && decide (digitsVal (c :: cs) < 4294967295)

/-- Stable insertion of `k` behind every existing key that must stay
strictly before it (`before j k = true`): the step of an insertion sort
that keeps elements the comparator does not separate in incoming order. -/
def insertStable (before : String → String → Bool) (k : String) :
    List String → List String
  | [] => [k]
  | j :: js => if before j k then j :: insertStable before k js else k :: j :: js

/-- Stable insertion sort on keys: each key is inserted into the sorted
image of the keys after it, so it precedes every key the comparator does
not order strictly before it. -/
def sortStable (before : String → String → Bool) : List String → List String
  | [] => []
  | k :: ks => insertStable before k (sortStable before ks)

/-- ECMAScript OwnPropertyKeys order of a JS object's string keys, given
their property-creation order: array-index-like keys first in ascending
numeric order, then the remaining keys in creation order. This is the
order observed by `Object.keys` and `Object.entries`. -/
def jsEnumOrder (keys : List String) : List String :=
  sortStable (fun j k => decide (digitsVal j.data < digitsVal k.data))
      (keys.filter isArrayIndex)
    ++ keys.filter fun k => !(isArrayIndex k)

/-- script.ts lines 226-228:
`Object.keys(categorized).sort((a, b) => categorized[b].length - categorized[a].length)`
— the enumeration order of the bucket object, stably sorted by descending
bucket length. -/
def sortedGenreKeys (categorized : Buckets) : List String :=
  sortStable
    (fun a b =>
      decide ((bucketOf categorized a).length > (bucketOf categorized b).length))
    (jsEnumOrder (categorized.map Prod.fst))

/-- script.ts lines 203-233, `categorizeTracksByGenre`: the buckets are
built by the forEach loop (`rawBuckets`), the keys are enumerated and
sorted (`sortedGenreKeys`, lines 226-228), and `sortedCategories` is
rebuilt by inserting the keys in that order (lines 228-230). A caller
enumerating the returned object observes its OwnPropertyKeys order, so
the observable result lists the sorted keys re-enumerated by
`jsEnumOrder`, each paired with its bucket. -/
def categorizeTracksByGenre (tracks : List Track) : Buckets :=
  (jsEnumOrder (sortedGenreKeys (rawBuckets tracks))).map
    fun genre => (genre, bucketOf (rawBuckets tracks) genre)

/-- The enrichment-and-categorization pipeline: enrich (which awaits the
catalog lookup) and then categorize; a lookup failure aborts the whole run. -/
def categorizeTracksPipeline (fetchArtistGenres : List String → Except CatalogError Catalog)
    (tracks : List Track) : Except CatalogError Buckets :=
  match enrichTracksWithGenres fetchArtistGenres tracks with
  | Except.error e => Except.error e
  | Except.ok enriched => Except.ok (categorizeTracksByGenre enriched)

/-- Flattening a categorized result into one list: the union of all buckets
in order. -/
def flattenBuckets (buckets : Buckets) : List Track :=
  buckets.flatMap fun p => p.2

/-- The sum of the lengths of all buckets. -/
def sumLens (buckets : Buckets) : Nat :=
  (buckets.map fun p => p.2.length).sum

/-- Keys of an association list are pairwise distinct. -/
def nodupKeys (buckets : Buckets) : Prop :=
  (buckets.map Prod.fst).Nodup

/-- A track with its genre field blanked out; two tracks agree on every
field other than `genres` iff `eraseGenres` maps them to the same value. -/
def eraseGenres (track : Track) : Track :=
  { track with genres := none }

/-! ### Properties of `jsSetDedup` -/

theorem mem_jsSetDedup {α : Type} [DecidableEq α] {s : α} {xs : List α} :
    s ∈ jsSetDedup xs ↔ s ∈ xs := by
  induction xs with
  | nil => simp [jsSetDedup]
  | cons x xs ih =>
    simp only [jsSetDedup, List.mem_cons, List.mem_filter, decide_eq_true_eq, ih]
    constructor
    · rintro (h | ⟨h, -⟩)
      · exact Or.inl h
      · exact Or.inr h
    · intro h
      by_cases hs : s = x
      · exact Or.inl hs
      · rcases h with h | h
        · exact absurd h hs
        · exact Or.inr ⟨h, hs⟩

theorem nodup_jsSetDedup {α : Type} [DecidableEq α] (xs : List α) :
    (jsSetDedup xs).Nodup := by
  induction xs with
  | nil => simp [jsSetDedup]
  | cons x xs ih =>
    simp only [jsSetDedup, List.nodup_cons]
    refine ⟨?_, ih.filter _⟩
    intro hmem
    have := (List.mem_filter.mp hmem).2
    simp at this

theorem jsSetDedup_sublist {α : Type} [DecidableEq α] (xs : List α) :
    (jsSetDedup xs).Sublist xs := by
  induction xs with
  | nil => simp [jsSetDedup]
  | cons x xs ih =>
    simp only [jsSetDedup]
    exact List.Sublist.cons₂ x ((List.filter_sublist _).trans ih)

theorem pairwise_indexOf_jsSetDedup {α : Type} [DecidableEq α] (xs : List α) :
    (jsSetDedup xs).Pairwise (fun a b => xs.indexOf a < xs.indexOf b) := by
  induction xs with
  | nil => simp [jsSetDedup]
  | cons x xs ih =>
    simp only [jsSetDedup, List.pairwise_cons]
    constructor
    · intro b hb
      have hbne : b ≠ x := by
        have := (List.mem_filter.mp hb).2
        simpa using this
      rw [List.indexOf_cons_self, List.indexOf_cons_ne _ (Ne.symm hbne)]
      exact Nat.succ_pos _
    · refine (ih.filter (fun y => decide (y ≠ x))).imp_of_mem ?_
      intro a b ha hb hab
      have hax : a ≠ x := by
        have := (List.mem_filter.mp ha).2
        simpa using this
      have hbx : b ≠ x := by
        have := (List.mem_filter.mp hb).2
        simpa using this
      rw [List.indexOf_cons_ne _ (Ne.symm hax), List.indexOf_cons_ne _ (Ne.symm hbx)]
      exact Nat.succ_lt_succ hab

/-! ### Properties of bucket access and `addToBucket` -/

theorem hasKey_iff {bs : Buckets} {g : String} :
    hasKey bs g = true ↔ g ∈ bs.map Prod.fst := by
  simp only [hasKey, List.any_eq_true, List.mem_map, beq_iff_eq]

theorem bucketOf_eq_nil {bs : Buckets} {g : String} (h : g ∉ bs.map Prod.fst) :
    bucketOf bs g = [] := by
  induction bs with
  | nil => rfl
  | cons p rest ih =>
    simp only [List.map_cons, List.mem_cons] at h
    push_neg at h
    simp only [bucketOf]
    rw [if_neg (fun he => h.1 he.symm)]
    exact ih h.2

theorem bucketOf_append_left {bs cs : Buckets} {g : String} (h : g ∈ bs.map Prod.fst) :
    bucketOf (bs ++ cs) g = bucketOf bs g := by
  induction bs with
  | nil => simp at h
  | cons p rest ih =>
    simp only [List.map_cons, List.mem_cons] at h
    by_cases hp : p.1 = g
    · simp only [List.cons_append, bucketOf, if_pos hp]
    · simp only [List.cons_append, bucketOf, if_neg hp]
      rcases h with h | h
      · exact absurd h.symm hp
      · exact ih h

theorem bucketOf_append_right {bs cs : Buckets} {g : String} (h : g ∉ bs.map Prod.fst) :
    bucketOf (bs ++ cs) g = bucketOf cs g := by
  induction bs with
  | nil => rfl
  | cons p rest ih =>
    simp only [List.map_cons, List.mem_cons] at h
    push_neg at h
    simp only [List.cons_append, bucketOf]
    rw [if_neg (fun he => h.1 he.symm)]
    exact ih h.2

theorem bucketOf_mapUpd_ne {bs : Buckets} {g g' : String} {t : Track} (h : g' ≠ g) :
    bucketOf (bs.map fun p => if p.1 = g then (p.1, p.2 ++ [t]) else p) g'
      = bucketOf bs g' := by
  induction bs with
  | nil => rfl
  | cons p rest ih =>
    by_cases hp : p.1 = g
    · simp only [List.map_cons, if_pos hp, bucketOf]
      rw [if_neg (fun he => h (hp ▸ he).symm), if_neg (fun he => h (hp ▸ he).symm), ih]
    · simp only [List.map_cons, if_neg hp, bucketOf]
      by_cases hq : p.1 = g'
      · rw [if_pos hq, if_pos hq]
      · rw [if_neg hq, if_neg hq, ih]

theorem bucketOf_mapUpd_self {bs : Buckets} {g : String} {t : Track}
    (h : g ∈ bs.map Prod.fst) :
    bucketOf (bs.map fun p => if p.1 = g then (p.1, p.2 ++ [t]) else p) g
      = bucketOf bs g ++ [t] := by
  induction bs with
  | nil => simp at h
  | cons p rest ih =>
    by_cases hp : p.1 = g
    · simp only [List.map_cons, if_pos hp, bucketOf, if_pos hp]
    · simp only [List.map_cons, List.mem_cons] at h
      simp only [List.map_cons, if_neg hp, bucketOf, if_neg hp]
      rcases h with h | h
      · exact absurd h.symm hp
      · exact ih h

theorem bucketOf_addToBucket (bs : Buckets) (g : String) (t : Track) (g' : String) :
    bucketOf (addToBucket bs g t) g'
      = if g' = g then bucketOf bs g' ++ [t] else bucketOf bs g' := by
  unfold addToBucket
  by_cases hk : hasKey bs g
  · rw [if_pos hk]
    by_cases he : g' = g
    · subst he
      rw [if_pos rfl, bucketOf_mapUpd_self (hasKey_iff.mp hk)]
    · rw [if_neg he, bucketOf_mapUpd_ne he]
  · have hnk : g ∉ bs.map Prod.fst := fun hm => hk (hasKey_iff.mpr hm)
    rw [if_neg hk]
    by_cases he : g' = g
    · subst he
      have hmem : g' ∈ (bs ++ [(g', ([] : List Track))]).map Prod.fst := by
        simp
      rw [if_pos rfl, bucketOf_mapUpd_self hmem, bucketOf_append_right hnk,
        bucketOf_eq_nil hnk]
      simp [bucketOf]
    · rw [if_neg he, bucketOf_mapUpd_ne he]
      by_cases hm : g' ∈ bs.map Prod.fst
      · rw [bucketOf_append_left hm]
      · rw [bucketOf_append_right hm, bucketOf_eq_nil hm]
        simp only [bucketOf]
        split <;> rfl

theorem keys_addToBucket (bs : Buckets) (g : String) (t : Track) :
    (addToBucket bs g t).map Prod.fst
      = if hasKey bs g then bs.map Prod.fst else bs.map Prod.fst ++ [g] := by
  unfold addToBucket
  have hfst : ∀ cs : Buckets,
      (cs.map fun p => if p.1 = g then (p.1, p.2 ++ [t]) else p).map Prod.fst
        = cs.map Prod.fst := by
    intro cs
    rw [List.map_map]
    refine List.map_congr_left ?_
    intro p _
    by_cases hp : p.1 = g <;> simp [hp]
  by_cases hk : hasKey bs g
  · rw [if_pos hk, if_pos hk, hfst]
  · rw [if_neg hk, if_neg hk, hfst]
    simp

theorem nodupKeys_addToBucket {bs : Buckets} (g : String) (t : Track) (h : nodupKeys bs) :
    nodupKeys (addToBucket bs g t) := by
  unfold nodupKeys
  rw [keys_addToBucket]
  by_cases hk : hasKey bs g
  · rw [if_pos hk]
    exact h
  · have hnk : g ∉ bs.map Prod.fst := fun hm => hk (hasKey_iff.mpr hm)
    rw [if_neg hk, List.nodup_append]
    refine ⟨h, List.nodup_singleton g, ?_⟩
    intro a ha hag
    rw [List.mem_singleton] at hag
    exact hnk (hag ▸ ha)

/-! ### The `forEach` loop: folding `pushTrack` over the track list -/

theorem bucketOf_foldLabels (t : Track) (ls : List String) (acc : Buckets) (g : String) :
    bucketOf (ls.foldl (fun a genre => addToBucket a genre t) acc) g
      = bucketOf acc g ++ List.replicate (ls.count g) t := by
  induction ls generalizing acc with
  | nil => simp
  | cons l rest ih =>
    rw [List.foldl_cons, ih, bucketOf_addToBucket, List.count_cons]
    by_cases he : l = g
    · rw [if_pos he.symm, if_pos (show (l == g) = true by simpa using he), List.append_assoc]
      congr 1
    · rw [if_neg (fun hgl => he hgl.symm),
        if_neg (show ¬(l == g) = true by simpa using he), Nat.add_zero]

theorem nodupKeys_foldLabels (t : Track) (ls : List String) {acc : Buckets}
    (h : nodupKeys acc) :
    nodupKeys (ls.foldl (fun a genre => addToBucket a genre t) acc) := by
  induction ls generalizing acc with
  | nil => exact h
  | cons l rest ih =>
    rw [List.foldl_cons]
    exact ih (nodupKeys_addToBucket l t h)

theorem pushTrack_eq_foldLabels (acc : Buckets) (t : Track) :
    pushTrack acc t = (trackLabels t).foldl (fun a genre => addToBucket a genre t) acc := by
  unfold pushTrack trackLabels
  cases hg : t.genres with
  | none => simp
  | some gs =>
    by_cases hl : gs.length > 0
    · simp [hl]
    · simp [hl]

theorem bucketOf_foldPush (ts : List Track) (acc : Buckets) (g : String) :
    bucketOf (ts.foldl pushTrack acc) g
      = bucketOf acc g ++ ts.flatMap (fun t => List.replicate ((trackLabels t).count g) t) := by
  induction ts generalizing acc with
  | nil => simp
  | cons t rest ih =>
    rw [List.foldl_cons, ih, pushTrack_eq_foldLabels, bucketOf_foldLabels,
      List.flatMap_cons, List.append_assoc]

theorem nodupKeys_foldPush (ts : List Track) {acc : Buckets} (h : nodupKeys acc) :
    nodupKeys (ts.foldl pushTrack acc) := by
  induction ts generalizing acc with
  | nil => exact h
  | cons t rest ih =>
    rw [List.foldl_cons, pushTrack_eq_foldLabels]
    exact ih (nodupKeys_foldLabels t _ h)

theorem bucketOf_rawBuckets (ts : List Track) (g : String) :
    bucketOf (rawBuckets ts) g
      = ts.flatMap fun t => List.replicate ((trackLabels t).count g) t := by
  unfold rawBuckets
  rw [bucketOf_foldPush]
  rfl

theorem nodupKeys_rawBuckets (ts : List Track) : nodupKeys (rawBuckets ts) :=
  nodupKeys_foldPush ts List.nodup_nil

/-! ### Key enumeration order and the stable sort of keys -/

theorem insertStable_perm (before : String → String → Bool) (k : String)
    (K : List String) : (insertStable before k K).Perm (k :: K) := by
  induction K with
  | nil => exact List.Perm.refl _
  | cons j js ih =>
    unfold insertStable
    by_cases h : before j k = true
    · rw [if_pos h]
      exact (ih.cons j).trans (List.Perm.swap k j js)
    · rw [if_neg h]

theorem sortStable_perm (before : String → String → Bool) (K : List String) :
    (sortStable before K).Perm K := by
  induction K with
  | nil => exact List.Perm.refl _
  | cons k ks ih =>
    exact (insertStable_perm before k (sortStable before ks)).trans (ih.cons k)

theorem jsEnumOrder_perm (keys : List String) : (jsEnumOrder keys).Perm keys := by
  unfold jsEnumOrder
  refine ((sortStable_perm _ _).append_right _).trans ?_
  exact List.filter_append_perm _ keys

theorem jsEnumOrder_of_no_index {keys : List String}
    (h : ∀ k ∈ keys, isArrayIndex k = false) : jsEnumOrder keys = keys := by
  unfold jsEnumOrder
  have h1 : keys.filter isArrayIndex = [] := by
    rw [List.filter_eq_nil]
    intro k hk
    simp [h k hk]
  have h2 : (keys.filter fun k => !(isArrayIndex k)) = keys := by
    rw [List.filter_eq_self]
    intro k hk
    simp [h k hk]
  rw [h1, h2]
  rfl

theorem bucketOf_mapKeyFn (K : List String) (f : String → List Track) (g : String) :
    bucketOf (K.map fun k => (k, f k)) g = if g ∈ K then f g else [] := by
  induction K with
  | nil => simp [bucketOf]
  | cons k ks ih =>
    show (if k = g then f k else bucketOf (ks.map fun k => (k, f k)) g) = _
    by_cases hk : k = g
    · subst hk
      rw [if_pos rfl, if_pos (List.mem_cons_self k ks)]
    · rw [if_neg hk, ih]
      by_cases hg : g ∈ ks
      · rw [if_pos hg, if_pos (List.mem_cons_of_mem k hg)]
      · have hgc : g ∉ k :: ks := by
          intro hgc
          rcases List.mem_cons.mp hgc with h | h
          · exact hk h.symm
          · exact hg h
        rw [if_neg hg, if_neg hgc]

theorem keys_mapKeyFn (K : List String) (f : String → List Track) :
    (K.map fun k => (k, f k)).map Prod.fst = K := by
  rw [List.map_map]
  exact (List.map_congr_left fun k hk => rfl).trans (List.map_id K)

theorem sortedGenreKeys_perm (bs : Buckets) :
    (sortedGenreKeys bs).Perm (bs.map Prod.fst) :=
  (sortStable_perm _ _).trans (jsEnumOrder_perm _)

theorem keys_categorize_perm (ts : List Track) :
    ((categorizeTracksByGenre ts).map Prod.fst).Perm ((rawBuckets ts).map Prod.fst) := by
  unfold categorizeTracksByGenre
  rw [keys_mapKeyFn]
  exact (jsEnumOrder_perm _).trans (sortedGenreKeys_perm _)

theorem bucketOf_categorize_raw (ts : List Track) (g : String) :
    bucketOf (categorizeTracksByGenre ts) g = bucketOf (rawBuckets ts) g := by
  unfold categorizeTracksByGenre
  rw [bucketOf_mapKeyFn]
  by_cases hg : g ∈ jsEnumOrder (sortedGenreKeys (rawBuckets ts))
  · rw [if_pos hg]
  · rw [if_neg hg]
    have hnk : g ∉ (rawBuckets ts).map Prod.fst := by
      intro hm
      exact hg (((jsEnumOrder_perm _).trans (sortedGenreKeys_perm _)).mem_iff.mpr hm)
    exact (bucketOf_eq_nil hnk).symm

/-- Master characterization: the bucket of label `g` in the categorized
result is exactly the input scan, each track contributing one copy per
occurrence of `g` among its labels. -/
theorem bucketOf_categorize (ts : List Track) (g : String) :
    bucketOf (categorizeTracksByGenre ts) g
      = ts.flatMap fun t => List.replicate ((trackLabels t).count g) t := by
  rw [bucketOf_categorize_raw, bucketOf_rawBuckets]

/-! ### Membership, flattening, key distinctness of the categorized result -/

theorem trackLabels_ne_nil (t : Track) : trackLabels t ≠ [] := by
  unfold trackLabels
  cases t.genres with
  | none => simp
  | some gs =>
    by_cases h : gs.length > 0
    · simpa [h] using List.ne_nil_of_length_pos h
    · simp [h]

theorem mem_bucketOf_categorize {ts : List Track} {g : String} {t : Track} :
    t ∈ bucketOf (categorizeTracksByGenre ts) g ↔ t ∈ ts ∧ g ∈ trackLabels t := by
  rw [bucketOf_categorize]
  simp only [List.mem_flatMap, List.mem_replicate]
  constructor
  · rintro ⟨u, hu, hne, rfl⟩
    exact ⟨hu, List.count_pos_iff.mp (Nat.pos_of_ne_zero hne)⟩
  · rintro ⟨ht, hg⟩
    exact ⟨t, ht, Nat.pos_iff_ne_zero.mp (List.count_pos_iff.mpr hg), rfl⟩

theorem nodupKeys_categorize (ts : List Track) : nodupKeys (categorizeTracksByGenre ts) :=
  (keys_categorize_perm ts).nodup_iff.mpr (nodupKeys_rawBuckets ts)

theorem bucketOf_of_mem {bs : Buckets} {p : String × List Track}
    (hnd : nodupKeys bs) (hp : p ∈ bs) : bucketOf bs p.1 = p.2 := by
  induction bs with
  | nil => simp at hp
  | cons q qs ih =>
    have hnd2 : (q.1 :: qs.map Prod.fst).Nodup := hnd
    obtain ⟨hq, hn⟩ := List.nodup_cons.mp hnd2
    rcases List.mem_cons.mp hp with rfl | hp
    · show (if p.1 = p.1 then p.2 else _) = p.2
      rw [if_pos rfl]
    · show (if q.1 = p.1 then q.2 else bucketOf qs p.1) = p.2
      have hne : q.1 ≠ p.1 := fun he => hq (he ▸ List.mem_map_of_mem Prod.fst hp)
      rw [if_neg hne]
      exact ih hn hp

theorem mem_flattenBuckets {bs : Buckets} {t : Track} :
    t ∈ flattenBuckets bs ↔ ∃ p ∈ bs, t ∈ p.2 := by
  simp [flattenBuckets, List.mem_flatMap]

theorem mem_flatten_of_mem_bucketOf {bs : Buckets} {g : String} {t : Track}
    (h : t ∈ bucketOf bs g) : t ∈ flattenBuckets bs := by
  induction bs with
  | nil => simp [bucketOf] at h
  | cons p rest ih =>
    have hflat : flattenBuckets (p :: rest) = p.2 ++ flattenBuckets rest := rfl
    rw [hflat, List.mem_append]
    rw [show bucketOf (p :: rest) g = if p.1 = g then p.2 else bucketOf rest g from rfl] at h
    by_cases hp : p.1 = g
    · rw [if_pos hp] at h
      exact Or.inl h
    · rw [if_neg hp] at h
      exact Or.inr (ih h)

theorem mem_flatten_categorize {ts : List Track} {t : Track} :
    t ∈ flattenBuckets (categorizeTracksByGenre ts) ↔ t ∈ ts := by
  constructor
  · intro h
    rcases mem_flattenBuckets.mp h with ⟨p, hp, htp⟩
    have heq := bucketOf_of_mem (nodupKeys_categorize ts) hp
    rw [← heq] at htp
    exact (mem_bucketOf_categorize.mp htp).1
  · intro h
    have hhead : (trackLabels t).head (trackLabels_ne_nil t) ∈ trackLabels t :=
      List.head_mem (trackLabels_ne_nil t)
    exact mem_flatten_of_mem_bucketOf (mem_bucketOf_categorize.mpr ⟨h, hhead⟩)

/-! ### Sum of bucket lengths -/

theorem sumLens_cons (p : String × List Track) (bs : Buckets) :
    sumLens (p :: bs) = p.2.length + sumLens bs := by
  simp [sumLens]

theorem sumLens_append (bs cs : Buckets) :
    sumLens (bs ++ cs) = sumLens bs + sumLens cs := by
  simp [sumLens]

theorem sumLens_mapUpd_notMem {bs : Buckets} {g : String} {t : Track}
    (h : g ∉ bs.map Prod.fst) :
    sumLens (bs.map fun p => if p.1 = g then (p.1, p.2 ++ [t]) else p) = sumLens bs := by
  induction bs with
  | nil => rfl
  | cons p rest ih =>
    simp only [List.map_cons, List.mem_cons] at h
    push_neg at h
    rw [List.map_cons, if_neg (fun he => h.1 he.symm), sumLens_cons, sumLens_cons, ih h.2]

theorem sumLens_mapUpd_mem {bs : Buckets} {g : String} {t : Track}
    (hnd : nodupKeys bs) (h : g ∈ bs.map Prod.fst) :
    sumLens (bs.map fun p => if p.1 = g then (p.1, p.2 ++ [t]) else p) = sumLens bs + 1 := by
  induction bs with
  | nil => simp at h
  | cons p rest ih =>
    have hnd2 : (p.1 :: rest.map Prod.fst).Nodup := hnd
    obtain ⟨hp, hn⟩ := List.nodup_cons.mp hnd2
    by_cases hpg : p.1 = g
    · rw [List.map_cons, if_pos hpg, sumLens_cons, sumLens_cons,
        sumLens_mapUpd_notMem (hpg ▸ hp)]
      simp [List.length_append]
      omega
    · simp only [List.map_cons, List.mem_cons] at h
      rcases h with h | h
      · exact absurd h.symm hpg
      · rw [List.map_cons, if_neg hpg, sumLens_cons, sumLens_cons, ih hn h]
        omega

theorem sumLens_addToBucket {bs : Buckets} (g : String) (t : Track) (h : nodupKeys bs) :
    sumLens (addToBucket bs g t) = sumLens bs + 1 := by
  unfold addToBucket
  by_cases hk : hasKey bs g
  · rw [if_pos hk]
    exact sumLens_mapUpd_mem h (hasKey_iff.mp hk)
  · have hnk : g ∉ bs.map Prod.fst := fun hm => hk (hasKey_iff.mpr hm)
    rw [if_neg hk, List.map_append, sumLens_append, sumLens_mapUpd_notMem hnk]
    simp [sumLens]

theorem sumLens_foldLabels (t : Track) (ls : List String) (acc : Buckets)
    (h : nodupKeys acc) :
    sumLens (ls.foldl (fun a genre => addToBucket a genre t) acc)
      = sumLens acc + ls.length := by
  induction ls generalizing acc with
  | nil => simp
  | cons l rest ih =>
    rw [List.foldl_cons, ih _ (nodupKeys_addToBucket l t h), sumLens_addToBucket l t h]
    simp [List.length_cons]
    omega

theorem sumLens_foldPush (ts : List Track) (acc : Buckets) (h : nodupKeys acc) :
    sumLens (ts.foldl pushTrack acc)
      = sumLens acc + (ts.map fun t => (trackLabels t).length).sum := by
  induction ts generalizing acc with
  | nil => simp
  | cons t rest ih =>
    rw [List.foldl_cons, pushTrack_eq_foldLabels,
      ih _ (nodupKeys_foldLabels t _ h), sumLens_foldLabels t _ _ h, List.map_cons,
      List.sum_cons]
    omega

theorem sumLens_mapKeyFn_perm (bs : Buckets) (K : List String)
    (hperm : K.Perm (bs.map Prod.fst)) (hnd : nodupKeys bs) :
    sumLens (K.map fun g => (g, bucketOf bs g)) = sumLens bs := by
  unfold sumLens
  rw [List.map_map]
  have h2 : (bs.map Prod.fst).map (fun g => (bucketOf bs g).length)
      = bs.map fun p => p.2.length := by
    rw [List.map_map]
    refine List.map_congr_left ?_
    intro p hp
    show (bucketOf bs p.1).length = p.2.length
    rw [bucketOf_of_mem hnd hp]
  calc (K.map ((fun p : String × List Track => p.2.length)
          ∘ fun g => (g, bucketOf bs g))).sum
      = ((bs.map Prod.fst).map fun g => (bucketOf bs g).length).sum :=
        (hperm.map fun g => (bucketOf bs g).length).sum_eq
    _ = (bs.map fun p => p.2.length).sum := by rw [h2]

theorem sumLens_categorize (ts : List Track) :
    sumLens (categorizeTracksByGenre ts)
      = (ts.map fun t => (trackLabels t).length).sum := by
  have h1 : sumLens (categorizeTracksByGenre ts) = sumLens (rawBuckets ts) := by
    unfold categorizeTracksByGenre
    exact sumLens_mapKeyFn_perm (rawBuckets ts) _
      ((jsEnumOrder_perm _).trans (sortedGenreKeys_perm _)) (nodupKeys_rawBuckets ts)
  rw [h1]
  unfold rawBuckets
  rw [sumLens_foldPush ts [] List.nodup_nil]
  simp [sumLens]

/-! ### Sortedness and stability of the returned key order -/

theorem mem_insertStable {before : String → String → Bool} {k j : String}
    {K : List String} :
    j ∈ insertStable before k K ↔ j = k ∨ j ∈ K := by
  rw [(insertStable_perm before k K).mem_iff]
  exact List.mem_cons

theorem sorted_insertStable_len (len : String → Nat) (k : String) {K : List String}
    (h : K.Pairwise fun a b => len b ≤ len a) :
    (insertStable (fun a b => decide (len a > len b)) k K).Pairwise
      fun a b => len b ≤ len a := by
  induction K with
  | nil => simp [insertStable]
  | cons j js ih =>
    rw [List.pairwise_cons] at h
    obtain ⟨hj, hjs⟩ := h
    unfold insertStable
    by_cases hlen : len j > len k
    · rw [if_pos (decide_eq_true hlen), List.pairwise_cons]
      refine ⟨?_, ih hjs⟩
      intro r hr
      rcases mem_insertStable.mp hr with rfl | hr
      · exact Nat.le_of_lt hlen
      · exact hj r hr
    · rw [if_neg (by simpa using hlen), List.pairwise_cons]
      refine ⟨?_, List.pairwise_cons.mpr ⟨hj, hjs⟩⟩
      intro r hr
      rcases List.mem_cons.mp hr with rfl | hr
      · exact Nat.le_of_not_lt hlen
      · exact Nat.le_trans (hj r hr) (Nat.le_of_not_lt hlen)

theorem sorted_sortStable_len (len : String → Nat) (K : List String) :
    (sortStable (fun a b => decide (len a > len b)) K).Pairwise
      fun a b => len b ≤ len a := by
  induction K with
  | nil => simp [sortStable]
  | cons k ks ih => exact sorted_insertStable_len len k ih

theorem filter_insertStable_len (len : String → Nat) (k : String) (K : List String)
    (n : Nat) :
    (insertStable (fun a b => decide (len a > len b)) k K).filter
        (fun j => decide (len j = n))
      = (k :: K).filter (fun j => decide (len j = n)) := by
  induction K with
  | nil => rfl
  | cons j js ih =>
    unfold insertStable
    by_cases hlen : len j > len k
    · rw [if_pos (decide_eq_true hlen)]
      by_cases hj : len j = n
      · have hk : ¬ len k = n := by omega
        simp [List.filter_cons, hj, hk, ih]
      · by_cases hk : len k = n
        · simp [List.filter_cons, hj, hk, ih]
        · simp [List.filter_cons, hj, hk, ih]
    · rw [if_neg (by simpa using hlen)]

theorem filter_sortStable_len (len : String → Nat) (K : List String) (n : Nat) :
    (sortStable (fun a b => decide (len a > len b)) K).filter
        (fun j => decide (len j = n))
      = K.filter (fun j => decide (len j = n)) := by
  induction K with
  | nil => rfl
  | cons k ks ih =>
    show ((insertStable _ k (sortStable _ ks)).filter _) = _
    rw [filter_insertStable_len, List.filter_cons, List.filter_cons, ih]

/-! ### Which labels become keys of the bucket object -/

theorem mem_keys_addToBucket {bs : Buckets} {g gg : String} {t : Track} :
    gg ∈ (addToBucket bs g t).map Prod.fst ↔ gg ∈ bs.map Prod.fst ∨ gg = g := by
  rw [keys_addToBucket]
  by_cases hk : hasKey bs g
  · rw [if_pos hk]
    constructor
    · exact Or.inl
    · rintro (h | rfl)
      · exact h
      · exact hasKey_iff.mp hk
  · rw [if_neg hk]
    simp

theorem mem_keys_foldLabels {t : Track} {ls : List String} {acc : Buckets}
    {g : String} :
    g ∈ ((ls.foldl (fun a genre => addToBucket a genre t) acc).map Prod.fst)
      ↔ g ∈ acc.map Prod.fst ∨ g ∈ ls := by
  induction ls generalizing acc with
  | nil => simp
  | cons l rest ih =>
    rw [List.foldl_cons, ih, mem_keys_addToBucket, List.mem_cons]
    tauto

theorem mem_keys_foldPush {ts : List Track} {acc : Buckets} {g : String} :
    g ∈ ((ts.foldl pushTrack acc).map Prod.fst)
      ↔ g ∈ acc.map Prod.fst ∨ ∃ t ∈ ts, g ∈ trackLabels t := by
  induction ts generalizing acc with
  | nil => simp
  | cons t rest ih =>
    rw [List.foldl_cons, pushTrack_eq_foldLabels, ih, mem_keys_foldLabels]
    constructor
    · rintro ((h | h) | ⟨u, hu, hgu⟩)
      · exact Or.inl h
      · exact Or.inr ⟨t, List.mem_cons_self t rest, h⟩
      · exact Or.inr ⟨u, List.mem_cons_of_mem t hu, hgu⟩
    · rintro (h | ⟨u, hu, hgu⟩)
      · exact Or.inl (Or.inl h)
      · rcases List.mem_cons.mp hu with rfl | hu
        · exact Or.inl (Or.inr hgu)
        · exact Or.inr ⟨u, hu, hgu⟩

theorem mem_keys_rawBuckets {ts : List Track} {g : String} :
    g ∈ (rawBuckets ts).map Prod.fst ↔ ∃ t ∈ ts, g ∈ trackLabels t := by
  unfold rawBuckets
  rw [mem_keys_foldPush]
  simp

theorem trackLabels_nodup {t : Track} (h : (t.genres.getD []).Nodup) :
    (trackLabels t).Nodup := by
  unfold trackLabels
  cases hg : t.genres with
  | none => simp
  | some gs =>
    rw [hg] at h
    simp only [Option.getD_some] at h
    by_cases hl : gs.length > 0
    · simpa [hl] using h
    · simp [hl]

theorem flatMap_replicate_count_eq_filter {ts : List Track} {g : String}
    (h : ∀ t ∈ ts, (trackLabels t).Nodup) :
    (ts.flatMap fun t => List.replicate ((trackLabels t).count g) t)
      = ts.filter fun t => decide (g ∈ trackLabels t) := by
  induction ts with
  | nil => rfl
  | cons t rest ih =>
    rw [List.flatMap_cons, List.filter_cons,
      ih fun u hu => h u (List.mem_cons_of_mem t hu)]
    have ht := h t (List.mem_cons_self t rest)
    by_cases hg : g ∈ trackLabels t
    · rw [List.count_eq_one_of_mem ht hg]
      simp [hg]
    · rw [List.count_eq_zero_of_not_mem hg]
      simp [hg]

/-! ### Concrete example data for the scenario instances and witnesses -/

/-- An artist whose display name equals its identifier. -/
def exArtist (i : String) : Artist := { id := i, name := i }

/-- A small concrete track with the given id, artist ids and genre field. -/
def exTrack (i : String) (artistIds : List String) (gs : Option (List String)) : Track :=
  { id := i, name := i, artists := artistIds.map exArtist, album := "album",
    popularity := 50, preview_url := none, added_at := "2024-01-01", genres := gs }

/-- Scenario D of the spec: three enriched tracks distributed 2-rock/1-pop. -/
def scenarioD : List Track :=
  [exTrack "t1" [] (some ["rock"]), exTrack "t2" [] (some ["rock"]),
   exTrack "t3" [] (some ["pop"])]

/-! ### The claims -/

/-- C1: for every list of enriched tracks whose genre lists are
deduplicated, the sum of the lengths of all buckets returned by
`categorizeTracksByGenre` equals the sum over the tracks of
`max 1 (number of genres)`: a track with `N >= 1` genres is appended to
`N` buckets, and a track with zero (or absent) genres is appended exactly
once, to the `"Uncategorized"` bucket. -/
theorem categorize_sum_bucket_lengths (ts : List Track)
    (h : ∀ t ∈ ts, (t.genres.getD []).Nodup) :
    sumLens (categorizeTracksByGenre ts)
      = (ts.map fun t => max 1 (t.genres.getD []).length).sum := by
  rw [sumLens_categorize]
  congr 1
  refine List.map_congr_left ?_
  intro t ht
  unfold trackLabels
  cases hg : t.genres with
  | none => simp
  | some gs =>
    by_cases hl : gs.length > 0
    · simp only [Option.getD_some]
      rw [if_pos hl, Nat.max_eq_right hl]
    · have h0 : gs.length = 0 := by omega
      simp [hl, h0]

theorem categorize_sum_bucket_lengths_witness :
    (∀ t ∈ scenarioD, ((Track.genres t).getD []).Nodup) ∧
    sumLens (categorizeTracksByGenre scenarioD)
      = (scenarioD.map fun t => max 1 ((Track.genres t).getD []).length).sum :=
  ⟨by decide, categorize_sum_bucket_lengths scenarioD (by decide)⟩

/-- C2 counterexample: the claim as stated fails on the program. With
bucket `"b"` (size 2) created before bucket `"1"` (size 1), ECMAScript
enumeration of the returned object hoists the array-index-like key `"1"`
before `"b"`, so the returned key order is `["1", "b"]`: the bucket sizes
read 1 then 2, violating sorted-by-descending-size (and the first-created
tie rule). -/
theorem categorize_order_counterexample :
    (categorizeTracksByGenre
        [exTrack "t1" [] (some ["b"]), exTrack "t2" [] (some ["b"]),
         exTrack "t3" [] (some ["1"])]).map Prod.fst = ["1", "b"] ∧
    ¬ ((categorizeTracksByGenre
        [exTrack "t1" [] (some ["b"]), exTrack "t2" [] (some ["b"]),
         exTrack "t3" [] (some ["1"])]).Pairwise
      fun a b => b.2.length ≤ a.2.length) := by
  refine ⟨by decide, ?_⟩
  decide

/-- C2 (amended): for every list of enriched tracks none of whose genre
labels is an array-index-like string (a canonical base-10 numeral below
`2^32 - 1` — ECMAScript hoists such keys to the front of the object in
ascending numeric order, which is what the counterexample exhibits), the
ordered mapping returned by `categorizeTracksByGenre` lists its genre
labels sorted by descending bucket size, and when two buckets have equal
size the label that was first created (first encountered while scanning
the input) comes first — never alphabetical order: the keys filtered to
any fixed bucket size agree with the first-created key order of
`rawBuckets`; for three tracks distributed two to `"rock"` and one to
`"pop"` the key order is `["rock", "pop"]`. -/
theorem categorize_order_desc_stable (ts : List Track)
    (h : ∀ t ∈ ts, ∀ g ∈ trackLabels t, isArrayIndex g = false) :
    ((categorizeTracksByGenre ts).Pairwise fun a b => b.2.length ≤ a.2.length) ∧
    (∀ n : Nat,
      ((categorizeTracksByGenre ts).map Prod.fst).filter
          (fun g => decide ((bucketOf (rawBuckets ts) g).length = n))
        = ((rawBuckets ts).map Prod.fst).filter
          (fun g => decide ((bucketOf (rawBuckets ts) g).length = n))) ∧
    (categorizeTracksByGenre scenarioD).map Prod.fst = ["rock", "pop"] := by
  have hkeys : ∀ g ∈ (rawBuckets ts).map Prod.fst, isArrayIndex g = false := by
    intro g hg
    rcases mem_keys_rawBuckets.mp hg with ⟨t, ht, hgt⟩
    exact h t ht g hgt
  have he1 : jsEnumOrder ((rawBuckets ts).map Prod.fst) = (rawBuckets ts).map Prod.fst :=
    jsEnumOrder_of_no_index hkeys
  have hkeys2 : ∀ g ∈ sortedGenreKeys (rawBuckets ts), isArrayIndex g = false :=
    fun g hg => hkeys g ((sortedGenreKeys_perm (rawBuckets ts)).mem_iff.mp hg)
  have he2 : jsEnumOrder (sortedGenreKeys (rawBuckets ts))
      = sortedGenreKeys (rawBuckets ts) :=
    jsEnumOrder_of_no_index hkeys2
  refine ⟨?_, ?_, by decide⟩
  · unfold categorizeTracksByGenre
    rw [he2, List.pairwise_map]
    unfold sortedGenreKeys
    exact sorted_sortStable_len (fun g => (bucketOf (rawBuckets ts) g).length) _
  · intro n
    unfold categorizeTracksByGenre
    rw [he2, keys_mapKeyFn]
    unfold sortedGenreKeys
    rw [he1]
    exact filter_sortStable_len (fun g => (bucketOf (rawBuckets ts) g).length) _ n

theorem categorize_order_desc_stable_witness :
    (∀ t ∈ scenarioD, ∀ g ∈ trackLabels t, isArrayIndex g = false) ∧
    ((categorizeTracksByGenre scenarioD).Pairwise
      fun a b => b.2.length ≤ a.2.length) ∧
    (categorizeTracksByGenre scenarioD).map Prod.fst = ["rock", "pop"] :=
  ⟨by decide, (categorize_order_desc_stable scenarioD (by decide)).1,
    (categorize_order_desc_stable scenarioD (by decide)).2.2⟩

/-- C4: if the catalog lookup fails for the batch, the whole
enrichment-and-categorization run fails with that single error: no
enriched track list and no categorized result is produced, so the caller
never observes a result built from partial genre data. -/
theorem pipeline_fails_atomically (fetch : List String → Except CatalogError Catalog)
    (ts : List Track) (e : CatalogError)
    (h : fetch (collectArtistIds ts) = Except.error e) :
    enrichTracksWithGenres fetch ts = Except.error e ∧
    categorizeTracksPipeline fetch ts = Except.error e := by
  have he : enrichTracksWithGenres fetch ts = Except.error e := by
    unfold enrichTracksWithGenres
    rw [h]
  refine ⟨he, ?_⟩
  unfold categorizeTracksPipeline
  rw [he]

theorem pipeline_fails_atomically_witness :
    enrichTracksWithGenres (fun _ => Except.error CatalogError.catalogUnavailable) scenarioD
        = Except.error CatalogError.catalogUnavailable ∧
    categorizeTracksPipeline (fun _ => Except.error CatalogError.catalogUnavailable) scenarioD
        = Except.error CatalogError.catalogUnavailable :=
  pipeline_fails_atomically (fun _ => Except.error CatalogError.catalogUnavailable)
    scenarioD CatalogError.catalogUnavailable rfl

/-- C7: with a fixed catalog lookup, two runs of the pipeline over the
same input list produce identical results, including identical genre-key
ordering and identical per-bucket track ordering. The embedded functions
are pure: the corresponding source lines read no mutable global state and
use no source of nondeterminism, so each run is the same function of the
catalog lookup and the input. -/
theorem pipeline_deterministic (fetch : List String → Except CatalogError Catalog)
    (ts1 ts2 : List Track) (h : ts1 = ts2) :
    categorizeTracksPipeline fetch ts1 = categorizeTracksPipeline fetch ts2 ∧
    enrichTracksWithGenres fetch ts1 = enrichTracksWithGenres fetch ts2 := by
  rw [h]
  exact ⟨rfl, rfl⟩

theorem pipeline_deterministic_witness :
    categorizeTracksPipeline (fun _ => Except.ok [("a1", ["rock"])]) scenarioD
        = categorizeTracksPipeline (fun _ => Except.ok [("a1", ["rock"])]) scenarioD ∧
    enrichTracksWithGenres (fun _ => Except.ok [("a1", ["rock"])]) scenarioD
        = enrichTracksWithGenres (fun _ => Except.ok [("a1", ["rock"])]) scenarioD :=
  pipeline_deterministic (fun _ => Except.ok [("a1", ["rock"])]) scenarioD scenarioD rfl

/-- C8: idempotence of bucket membership: flattening all buckets of a
categorized result into one list (the union of all buckets, genre data
unchanged) and categorizing that flat list again yields exactly the same
bucket membership as the first result. -/
theorem categorize_idempotent_membership (ts : List Track) (g : String) (t : Track) :
    t ∈ bucketOf (categorizeTracksByGenre (flattenBuckets (categorizeTracksByGenre ts))) g
      ↔ t ∈ bucketOf (categorizeTracksByGenre ts) g := by
  rw [mem_bucketOf_categorize, mem_bucketOf_categorize, mem_flatten_categorize]

/-- C3: given any catalog mapping, enrichment sets each track's genre list
to the deduplicated union of the genre labels of that track's artists: the
list is duplicate-free, contains exactly the labels contributed by the
track's artists via the catalog (an artist id absent from the catalog
contributes nothing), and lists them in first-seen order scanning the
artists in artist-list order (strictly increasing first-occurrence
positions in the concatenation of the artists' genre lists); on the
scenario-B data the resulting genre list is `["rock", "pop"]`. -/
theorem enrich_genres_dedup_union (catalog : Catalog) (ts : List Track) (t : Track) :
    enrichTracksWithGenres (fun _ => Except.ok catalog) ts
        = Except.ok (ts.map fun u => { u with genres := some (trackGenres catalog u) }) ∧
    (trackGenres catalog t).Nodup ∧
    (∀ s : String, s ∈ trackGenres catalog t
        ↔ ∃ a ∈ t.artists, s ∈ (catalog.lookup a.id).getD []) ∧
    ((trackGenres catalog t).Pairwise fun x y =>
      (t.artists.flatMap fun a => (catalog.lookup a.id).getD []).indexOf x
        < (t.artists.flatMap fun a => (catalog.lookup a.id).getD []).indexOf y) ∧
    trackGenres [("a1", ["rock"]), ("a2", ["pop"])] (exTrack "t1" ["a1", "a2"] none)
        = ["rock", "pop"] := by
  refine ⟨rfl, nodup_jsSetDedup _, ?_, pairwise_indexOf_jsSetDedup _, by decide⟩
  intro s
  unfold trackGenres
  rw [mem_jsSetDedup, List.mem_flatMap]

/-- C5: enrichment returns a list in which every input track appears
exactly once, at the same position as in the input, with every field
other than the genre list unchanged (equal after erasing the genre
field); only `genres` is (re)assigned. -/
theorem enrich_preserves_tracks_frame (catalog : Catalog) (ts : List Track) :
    enrichTracksWithGenres (fun _ => Except.ok catalog) ts
        = Except.ok (enrichWithCatalog catalog ts) ∧
    (enrichWithCatalog catalog ts).length = ts.length ∧
    ∀ i (h1 : i < (enrichWithCatalog catalog ts).length) (h2 : i < ts.length),
      eraseGenres ((enrichWithCatalog catalog ts).get ⟨i, h1⟩)
        = eraseGenres (ts.get ⟨i, h2⟩) := by
  refine ⟨rfl, by simp [enrichWithCatalog], ?_⟩
  intro i h1 h2
  unfold enrichWithCatalog at h1 ⊢
  rw [List.get_map]
  rfl

theorem enrich_preserves_tracks_frame_witness :
    eraseGenres ((enrichWithCatalog [("a1", ["rock"])] [exTrack "t1" ["a1"] none]).get
        ⟨0, by decide⟩)
      = eraseGenres (([exTrack "t1" ["a1"] none] : List Track).get ⟨0, by decide⟩) :=
  (enrich_preserves_tracks_frame [("a1", ["rock"])] [exTrack "t1" ["a1"] none]).2.2 0
    (by decide) (by decide)

/-- C6: within any label's bucket the tracks appear in the same relative
order as in the input list: for enriched tracks (deduplicated genre
lists) the bucket is exactly the input list filtered to the tracks
carrying that label, hence a sublist of the input. -/
theorem bucket_stable_input_order (ts : List Track) (g : String)
    (h : ∀ t ∈ ts, (t.genres.getD []).Nodup) :
    bucketOf (categorizeTracksByGenre ts) g
        = ts.filter (fun t => decide (g ∈ trackLabels t)) ∧
    (bucketOf (categorizeTracksByGenre ts) g).Sublist ts := by
  have heq : bucketOf (categorizeTracksByGenre ts) g
      = ts.filter fun t => decide (g ∈ trackLabels t) := by
    rw [bucketOf_categorize]
    exact flatMap_replicate_count_eq_filter fun t ht => trackLabels_nodup (h t ht)
  exact ⟨heq, heq ▸ List.filter_sublist ts⟩

theorem bucket_stable_input_order_witness :
    bucketOf (categorizeTracksByGenre scenarioD) "rock"
        = scenarioD.filter (fun t => decide ("rock" ∈ trackLabels t)) ∧
    (bucketOf (categorizeTracksByGenre scenarioD) "rock").Sublist scenarioD :=
  bucket_stable_input_order scenarioD "rock" (by decide)

/-- C9: a genre label that is the empty string or consists only of
whitespace characters, carried by a track with a nonempty genre list, is a
legitimate distinct bucket label: the track is appended to the bucket
keyed by that exact string, and it is a member only of buckets keyed by
exact members of its genre list — so it is neither normalized or merged
with another label nor redirected to `"Uncategorized"`. -/
theorem whitespace_label_distinct_bucket (ts : List Track) (t : Track)
    (gs : List String) (w : String) (hw : ∀ c ∈ w.data, c.isWhitespace)
    (ht : t ∈ ts) (hg : t.genres = some gs) (hne : gs ≠ []) (hmem : w ∈ gs) :
    t ∈ bucketOf (categorizeTracksByGenre ts) w ∧
    ∀ g : String, t ∈ bucketOf (categorizeTracksByGenre ts) g → g ∈ gs := by
  have hlab : trackLabels t = gs := by
    simp only [trackLabels, hg]
    rw [if_pos (by simpa using List.length_pos.mpr hne)]
  constructor
  · exact mem_bucketOf_categorize.mpr ⟨ht, hlab ▸ hmem⟩
  · intro g hgmem
    have hgl := (mem_bucketOf_categorize.mp hgmem).2
    rwa [hlab] at hgl

theorem whitespace_label_distinct_bucket_witness :
    exTrack "tw" [] (some [" ", "rock"])
        ∈ bucketOf (categorizeTracksByGenre [exTrack "tw" [] (some [" ", "rock"])]) " " ∧
    ∀ g : String,
      exTrack "tw" [] (some [" ", "rock"])
          ∈ bucketOf (categorizeTracksByGenre [exTrack "tw" [] (some [" ", "rock"])]) g
        → g ∈ [" ", "rock"] :=
  whitespace_label_distinct_bucket [exTrack "tw" [] (some [" ", "rock"])]
    (exTrack "tw" [] (some [" ", "rock"])) [" ", "rock"] " "
    (by decide) (by decide) (by decide) (by decide) (by decide)

/-- C10: a track whose genres field is missing (never enriched) is treated
by `categorizeTracksByGenre` exactly like a track whose genre list is
empty: each is assigned the single label `"Uncategorized"`, is appended to
the `"Uncategorized"` bucket, and to no other bucket — the categorizer
neither raises an error on nor drops unenriched tracks (it is a total
function over them). -/
theorem missing_genres_uncategorized (ts : List Track) (t : Track)
    (ht : t ∈ ts) (hg : t.genres = none ∨ t.genres = some []) :
    trackLabels t = ["Uncategorized"] ∧
    (∀ u : Track, trackLabels { u with genres := none }
        = trackLabels { u with genres := some [] }) ∧
    t ∈ bucketOf (categorizeTracksByGenre ts) "Uncategorized" ∧
    ∀ g : String, t ∈ bucketOf (categorizeTracksByGenre ts) g → g = "Uncategorized" := by
  have hlab : trackLabels t = ["Uncategorized"] := by
    rcases hg with hg | hg <;> simp [trackLabels, hg]
  refine ⟨hlab, ?_, ?_, ?_⟩
  · intro u
    simp [trackLabels]
  · refine mem_bucketOf_categorize.mpr ⟨ht, ?_⟩
    rw [hlab]
    exact List.mem_singleton_self _
  · intro g hgm
    have hgl := (mem_bucketOf_categorize.mp hgm).2
    rw [hlab] at hgl
    simpa using hgl

theorem missing_genres_uncategorized_witness :
    trackLabels (exTrack "tn" [] none) = ["Uncategorized"] ∧
    (∀ u : Track, trackLabels { u with genres := none }
        = trackLabels { u with genres := some [] }) ∧
    exTrack "tn" [] none
        ∈ bucketOf (categorizeTracksByGenre [exTrack "tn" [] none]) "Uncategorized" ∧
    ∀ g : String,
      exTrack "tn" [] none ∈ bucketOf (categorizeTracksByGenre [exTrack "tn" [] none]) g
        → g = "Uncategorized" :=
  missing_genres_uncategorized [exTrack "tn" [] none] (exTrack "tn" [] none)
    (by decide) (Or.inl rfl)
